import Mathlib

/-!
# Verification of the FloatAST conversation parser and fragment extractor

Shallow embedding of `server/routes.ts` (functions `parseConversationToFloatAST`,
`extractFragmentsWithAI`, `extractFragmentsManually`) and the data model of
`shared/schema.ts`. Text is modelled as `List Char`; the ECMAScript string
operations used by the code (`split`, `trim`, `toLowerCase`, `includes`,
regular-expression matching, stable `Array.prototype.sort`) are given explicit
executable models. Nondeterministic inputs of the code (`randomUUID`,
`new Date`, the OpenAI response, `JSON.parse`) are passed in as parameters.
-/

namespace FloatZine

/-- The characters matched by ECMAScript `\s` (also the set stripped by
`String.prototype.trim`): ASCII whitespace, NBSP, the Unicode `Zs` spaces,
the line terminators and the BOM. -/
def wsChars : List Char :=
  ['\t', '\n', '\x0B', '\x0C', '\r', ' ',
   '\u00A0', '\u1680',
   '\u2000', '\u2001', '\u2002', '\u2003', '\u2004',
   '\u2005', '\u2006', '\u2007', '\u2008', '\u2009', '\u200A',
   '\u2028', '\u2029', '\u202F', '\u205F', '\u3000',
   '\uFEFF']

/-- The character class test for ECMAScript `\s`. -/
def jsWs (c : Char) : Bool :=
  decide (c ∈ wsChars)

/-- The character class matched by ECMAScript `.` (without the `s` flag):
everything except the four line terminators. -/
def dotChar (c : Char) : Bool :=
  !(c = '\n' || c = '\r' || c = '\u2028' || c = '\u2029')

/-- `String.prototype.toLowerCase`, character by character (ASCII range; the
inputs the claims quantify over are unaffected by the full Unicode table). -/
def lowerStr (s : List Char) : List Char :=
  s.map Char.toLower

/-- Does `pat` occur as a prefix of `s`? -/
def startsWith : List Char → List Char → Bool
  | [], _ => true
  | _ :: _, [] => false
  | p :: ps, c :: cs => p = c && startsWith ps cs

/-- `String.prototype.includes`: does `pat` occur contiguously inside `s`?
(The empty pattern occurs in every string.) -/
def includesSub (s pat : List Char) : Bool :=
  match s with
  | [] => startsWith pat []
  | _ :: cs => startsWith pat s || includesSub cs pat

/-- `String.prototype.split` with a single-character separator. -/
def splitOnChar (sep : Char) : List Char → List (List Char)
  | [] => [[]]
  | c :: cs =>
    if c = sep then [] :: splitOnChar sep cs
    else
      match splitOnChar sep cs with
      | [] => [[c]]
      | p :: ps => (c :: p) :: ps

/-- `String.prototype.trim`: strip `jsWs` characters from both ends. -/
def jsTrim (s : List Char) : List Char :=
  ((s.dropWhile jsWs).reverse.dropWhile jsWs).reverse

/-- Worker for `splitWsRuns`: `acc` is the reversed current piece and `skip`
records whether we are inside a whitespace run whose piece boundary has
already been emitted (so further whitespace extends the same separator). -/
def splitWsGo : Bool → List Char → List Char → List (List Char)
  | _, [], acc => [acc.reverse]
  | skip, c :: cs, acc =>
    if jsWs c then
      if skip then splitWsGo true cs acc
      else acc.reverse :: splitWsGo true cs []
    else splitWsGo false cs (c :: acc)

/-- `String.prototype.split(/\s+/)`: the pieces between maximal runs of
whitespace, keeping the empty pieces produced at the two ends (e.g. a
leading space yields a leading empty piece, as in ECMAScript). -/
def splitWsRuns (s : List Char) : List (List Char) :=
  splitWsGo false s []

/-- Greedy-with-backtracking semantics of the regex tail `\s*(.+)$` applied to
`rest`: try the split point `k` (length taken by `\s*`) from large to small;
the first `k` whose remainder is non-empty and free of line terminators wins,
and the capture `(.+)` is that remainder. Every candidate `k` lies inside the
leading whitespace run, so `\s*` is automatically satisfied. -/
def tailFrom (rest : List Char) : Nat → Option (List Char)
  | 0 => if !rest.isEmpty && rest.all dotChar then some rest else none
  | k + 1 =>
    let t := rest.drop (k + 1)
    if !t.isEmpty && t.all dotChar then some t else tailFrom rest k

/-- Match `\s*(.+)$` against `rest` (the text after the colon), returning the
capture of `(.+)`. `\s*` is greedy, so the largest viable split point is
taken. -/
def matchTail (rest : List Char) : Option (List Char) :=
  tailFrom rest (rest.takeWhile jsWs).length

/-- The regex `/^([^:]+):\s*(.+)$/` of `parseConversationToFloatAST`: a
non-empty colon-free author label, a colon, optional whitespace, then a
non-empty remainder. Returns the two captures `(author, text)`. -/
def matchMessage (line : List Char) : Option (List Char × List Char) :=
  let author := line.takeWhile (fun c => !(c = ':'))
  if author.isEmpty then none
  else
    match line.drop author.length with
    | [] => none
    | _ :: rest => (matchTail rest).map (fun text => (author, text))

/-! ## Data model (`shared/schema.ts`) -/

/-- `FloatNode.role`. -/
inductive Role where
  | human
  | assistant
  | system
deriving DecidableEq, Repr

/-- `FloatNode.type`. -/
inductive NodeType where
  | message
  | artifact
  | annotation
  | dispatch
  | ritual
deriving DecidableEq, Repr

/-- `FloatNode.content`. The parser never sets `structured`, so it is
omitted from the embedding. -/
structure NodeContent where
  raw : List Char
  processed : Option (List Char) := none
deriving DecidableEq, Repr

/-- `FloatNode.position`. -/
structure NodePosition where
  index : Nat
  depth : Nat
  parent : Option (List Char) := none
deriving DecidableEq, Repr

/-- `FloatNode`. The optional `semantic`, `float_markers` and `children`
fields are never populated by any code under scrutiny and are omitted. -/
structure FloatNode where
  id : List Char
  type : NodeType
  role : Option Role := none
  content : NodeContent
  position : NodePosition
deriving DecidableEq, Repr

/-- `FloatEdge.type`. -/
inductive EdgeType where
  | responds_to
  | references
  | contradicts
  | elaborates
  | summarizes
  | questions
  | implements
  | bridges
deriving DecidableEq, Repr

/-- `FloatEdge`. `weight` is a rational standing for the JSON number. -/
structure FloatEdge where
  id : List Char
  type : EdgeType
  source : List Char
  target : List Char
  weight : Option ℚ := none
deriving DecidableEq, Repr

/-- A JSON value, the result of `JSON.parse` (numbers as integers; the
claims only need discrimination by shape, never numeric arithmetic). -/
inductive Json where
  | null
  | bool (b : Bool)
  | num (n : Int)
  | str (s : List Char)
  | arr (xs : List Json)
  | obj (fields : List (List Char × Json))

/-- `PatternStats`. -/
structure PatternStats where
  ctx_markers : Nat
  float_dispatches : Nat
  ritual_invocations : Nat
  bridge_creates : Nat
  persona_switches : Nat
deriving DecidableEq, Repr

/-- `FloatAST.metadata.source`. -/
inductive SourceTag where
  | claude
  | chatgpt
  | gemini
  | local
  | composite
deriving DecidableEq, Repr

/-- `FloatAST.metadata` (fields the parser never sets are `Option`s). -/
structure AstMetadata where
  source : SourceTag
  mode : Option (List Char) := none
  project : Option (List Char) := none
  tags : Option (List (List Char)) := none
deriving DecidableEq, Repr

/-- `FloatAST.temporal`. -/
structure AstTemporal where
  created : List Char
  modified : Option (List Char) := none
deriving DecidableEq, Repr

/-- `FloatAST.transforms.preferred_output`. -/
inductive OutputTarget where
  | thread_reader
  | zine
  | microsite
  | knowledge_base
deriving DecidableEq, Repr

/-- `FloatAST.transforms`. -/
structure AstTransforms where
  preferred_output : OutputTarget
  depth_level : Nat
deriving DecidableEq, Repr

/-- `FloatAST.type`. -/
inductive AstType where
  | conversation
  | artifact
  | bridge
  | dispatch
deriving DecidableEq, Repr

/-- `FloatAST` (concepts is the code's `Record<string, any>`, modelled as an
association list of JSON values; the parser always leaves it empty). -/
structure FloatAST where
  id : List Char
  version : List Char
  type : AstType
  temporal : AstTemporal
  metadata : AstMetadata
  nodes : List FloatNode
  concepts : List (List Char × Json)
  patterns : PatternStats
  edges : List FloatEdge
  transforms : AstTransforms

/-! ## The parser (`parseConversationToFloatAST`) -/

/-- One iteration of the parser's `for (const line of lines)` loop: the node
built from `line` at running index `idx` with the fresh token `uuid`
(standing for this iteration's `randomUUID()` call), or `none` when the line
is blank after trimming (no node, index not advanced). -/
def buildNode (line : List Char) (idx : Nat) (uuid : List Char) : Option FloatNode :=
  match matchMessage line with
  | some (author, text) =>
    some
      { id := "node-".data ++ uuid
        type := NodeType.message
        role := some (if includesSub (lowerStr author) "assistant".data
                      then Role.assistant else Role.human)
        content := { raw := text, processed := some (jsTrim text) }
        position := { index := idx, depth := 0 } }
  | none =>
    if !(jsTrim line).isEmpty then
      some
        { id := "node-".data ++ uuid
          type := NodeType.message
          role := none
          content := { raw := line, processed := some (jsTrim line) }
          position := { index := idx, depth := 0 } }
    else none

/-- The parser's loop over the filtered lines. `idx` is `currentIndex`
(advanced only when a node is emitted, like the code's `currentIndex++`
inside the two branches); `k` counts `randomUUID()` calls, served by `gen`. -/
def buildNodes (gen : Nat → List Char) : List (List Char) → Nat → Nat → List FloatNode
  | [], _, _ => []
  | line :: rest, idx, k =>
    match buildNode line idx (gen k) with
    | some n => n :: buildNodes gen rest (idx + 1) (k + 1)
    | none => buildNodes gen rest idx k

/-- `parseConversationToFloatAST(content, title)`. `gen` serves the per-node
`randomUUID()` calls, `astUuid` the document's own, and `now` both
`new Date().toISOString()` calls. -/
def parseConversationToFloatAST (content title : List Char)
    (gen : Nat → List Char) (astUuid now : List Char) : FloatAST :=
  let lines := (splitOnChar '\n' content).filter (fun l => !(jsTrim l).isEmpty)
  let nodes := buildNodes gen lines 0 0
  { id := "ast-".data ++ astUuid
    version := "1.0".data
    type := AstType.conversation
    temporal := { created := now, modified := some now }
    metadata := { source := SourceTag.local, project := some title, tags := some [] }
    nodes := nodes
    concepts := []
    patterns :=
      { ctx_markers := 0
        float_dispatches := 0
        ritual_invocations := 0
        bridge_creates := 0
        persona_switches := (nodes.filter (fun n => n.role = some Role.assistant)).length }
    edges := []
    transforms := { preferred_output := OutputTarget.zine, depth_level := 2 } }

/-! ## Fragment extraction (`extractFragmentsWithAI`, `extractFragmentsManually`) -/

/-- The output fragment object (fields of the literals built by
`extractFragmentsManually`, which are also the shape §6 of the spec demands
of the oracle). -/
structure Fragment where
  text : List Char
  relevance : List Char
  keywords : List (List Char)
  category : List Char
deriving DecidableEq, Repr

/-- The intermediate object pushed onto `fragments` by
`extractFragmentsManually` — a `Fragment` plus the `score` field that the
final `.map(({score, ...fragment}) => fragment)` strips. -/
structure ScoredFragment where
  text : List Char
  relevance : List Char
  keywords : List (List Char)
  category : List Char
  score : Nat
deriving DecidableEq, Repr

/-- `({score, ...fragment}) => fragment`. -/
def ScoredFragment.toFragment (f : ScoredFragment) : Fragment :=
  { text := f.text, relevance := f.relevance, keywords := f.keywords, category := f.category }

/-- `query.toLowerCase().split(/\s+/)`. -/
def queryWordsOf (query : List Char) : List (List Char) :=
  splitWsRuns (lowerStr query)

/-- `queryWords.reduce((score, word) => text.includes(word) ? score + 1 : score, 0)`. -/
def relevanceScoreOf (queryWords : List (List Char)) (text : List Char) : Nat :=
  queryWords.foldl (fun score word => if includesSub text word then score + 1 else score) 0

/-- The template string `Contains ${relevanceScore} query terms`. -/
def containsMsg (score : Nat) : List Char :=
  "Contains ".data ++ (Nat.repr score).data ++ " query terms".data

/-- The scored fragment object literal pushed for a node that scores
positively. -/
def scoredFragOf (queryWords : List (List Char)) (node : FloatNode) (score : Nat) :
    ScoredFragment :=
  { text := node.content.raw
    relevance := containsMsg score
    keywords := queryWords.filter (fun word => includesSub (lowerStr node.content.raw) word)
    category := "General".data
    score := score }

/-- Stable insertion used to model `Array.prototype.sort(cmp)`: the element
`x` (arriving later in the original array) is placed before the first `y`
with `cond x y` and after every earlier element, which is exactly the
ECMAScript stable-sort order for a consistent comparator. -/
def insertBy (cond : α → α → Bool) (x : α) : List α → List α
  | [] => [x]
  | y :: ys => if cond x y then x :: y :: ys else y :: insertBy cond x ys

/-- Stable sort: fold the array left to right, inserting each element into
the already-sorted prefix. -/
def sortBy (cond : α → α → Bool) (l : List α) : List α :=
  l.foldl (fun acc x => insertBy cond x acc) []

/-- The comparator `(a, b) => b.score - a.score`: `a` is ordered before `b`
exactly when the comparator is negative, i.e. `b.score < a.score`. -/
def scoreCond (a b : ScoredFragment) : Bool :=
  decide (b.score < a.score)

/-- `extractFragmentsManually(floatAst, query, maxFragments)`: score every
node by the number of query words contained in its lower-cased raw text,
keep the positive scorers (in node order), stable-sort by score descending,
truncate with `.slice(0, maxFragments)` and strip the `score` field. -/
def extractFragmentsManually (floatAst : FloatAST) (query : List Char)
    (maxFragments : Nat) : List Fragment :=
  ((sortBy scoreCond (floatAst.nodes.filterMap (fun node =>
      if 0 < relevanceScoreOf (queryWordsOf query) (lowerStr node.content.raw)
      then some (scoredFragOf (queryWordsOf query) node
        (relevanceScoreOf (queryWordsOf query) (lowerStr node.content.raw)))
      else none))).take maxFragments).map ScoredFragment.toFragment

/-- Outcome of the `openai.chat.completions.create` call in
`extractFragmentsWithAI`: the whole call throwing (transport error), a
response with no `choices[0]?.message?.content` (the code then throws and is
caught by its own outer `catch`), or the content string. -/
inductive OracleResult where
  | transportError
  | noContent
  | content (c : List Char)

/-- What `extractFragmentsWithAI` returns: the value of `JSON.parse(content)`
passed through untouched, or the list built by the manual fallback. -/
inductive ExtractResult where
  | parsed (j : Json)
  | manual (fs : List Fragment)

/-- `extractFragmentsWithAI(floatAst, query, maxFragments)`. The oracle call
and `JSON.parse` are parameters: every transport error, missing content, or
parse failure falls through to `extractFragmentsManually`; a successfully
parsed value is returned as-is (the code performs no further check). -/
def extractFragmentsWithAI (floatAst : FloatAST) (query : List Char)
    (maxFragments : Nat) (oracle : OracleResult)
    (jsonParse : List Char → Option Json) : ExtractResult :=
  match oracle with
  | OracleResult.transportError =>
    ExtractResult.manual (extractFragmentsManually floatAst query maxFragments)
  | OracleResult.noContent =>
    ExtractResult.manual (extractFragmentsManually floatAst query maxFragments)
  | OracleResult.content c =>
    match jsonParse c with
    | some j => ExtractResult.parsed j
    | none => ExtractResult.manual (extractFragmentsManually floatAst query maxFragments)

/-! ## Spec-side definitions (for comparison with the code) -/

/-- Modelled from the spec (§4.4, and the repository's own FLOATAST.md
"Speaker changes"): `persona_switches` = count of adjacent node pairs whose
`role` differs. -/
def specPersonaSwitches : List FloatNode → Nat
  | a :: b :: rest => (if a.role = b.role then 0 else 1) + specPersonaSwitches (b :: rest)
  | _ => 0

/-- Modelled from the spec (§6): a JSON string. -/
def isStringJson : Json → Bool
  | Json.str _ => true
  | _ => false

/-- Modelled from the spec (§6): a JSON array of strings. -/
def isStringArrayJson : Json → Bool
  | Json.arr xs => xs.all isStringJson
  | _ => false

/-- Field lookup in a JSON object. -/
def jLookup (fields : List (List Char × Json)) (key : List Char) : Option Json :=
  (fields.find? (fun p => p.1 = key)).map (fun p => p.2)

/-- Modelled from the spec (§6): one fragment object
`{text: string, relevance: string, keywords: string[], category: string}`. -/
def isFragmentObj (j : Json) : Bool :=
  match j with
  | Json.obj fields =>
    (match jLookup fields "text".data with
     | some v => isStringJson v
     | none => false) &&
    (match jLookup fields "relevance".data with
     | some v => isStringJson v
     | none => false) &&
    (match jLookup fields "keywords".data with
     | some v => isStringArrayJson v
     | none => false) &&
    (match jLookup fields "category".data with
     | some v => isStringJson v
     | none => false)
  | _ => false

/-- Modelled from the spec (§6): the output shape the spec says the oracle
response must be validated against — a JSON array of fragment objects. -/
def isFragmentArrayJson (j : Json) : Bool :=
  match j with
  | Json.arr xs => xs.all isFragmentObj
  | _ => false

/-- A node paired with its relevance score — the object the spec's fallback
sorts ("sort remaining nodes by score descending, tie-break by
`position.index` ascending"). -/
abbrev SNode := FloatNode × Nat

/-- Strict ordering of the spec's fallback sort: higher score first, equal
scores ordered by ascending `position.index`. -/
def lexLt (a b : SNode) : Prop :=
  b.2 < a.2 ∨ (a.2 = b.2 ∧ a.1.position.index < b.1.position.index)

instance instDecidableLexLt (a b : SNode) : Decidable (lexLt a b) := by
  unfold lexLt
  exact inferInstance

/-- Boolean form of `lexLt` used to run the spec's sort. -/
def lexCond (a b : SNode) : Bool :=
  decide (lexLt a b)

/-- Comparison of scored nodes by score only (the code's comparator lifted to
`SNode`). -/
def pairCond (a b : SNode) : Bool :=
  decide (b.2 < a.2)

/-- Modelled from the spec (§4.6 fallback path, the wording claim C5
quotes): tokenize the query, score each node by contained query words,
discard zero scorers, sort by score descending with ties broken by
`position.index` ascending, take the first `N`, and map each surviving node
to a fragment (same fragment fields as the code's fallback builds). -/
def specFallbackExtract (floatAst : FloatAST) (query : List Char) (N : Nat) :
    List Fragment :=
  ((sortBy lexCond (floatAst.nodes.filterMap (fun node =>
      if 0 < relevanceScoreOf (queryWordsOf query) (lowerStr node.content.raw)
      then some (node, relevanceScoreOf (queryWordsOf query) (lowerStr node.content.raw))
      else none))).take N).map
    (fun p => (scoredFragOf (queryWordsOf query) p.1 p.2).toFragment)

/-- The fragment the fallback builds for a scored node (used to relate the
code's fragment-level sort to the spec's node-level sort). -/
def fragOfPair (queryWords : List (List Char)) (p : SNode) : ScoredFragment :=
  scoredFragOf queryWords p.1 p.2

/-! ## Concrete inputs used by witnesses and counterexamples -/

/-- A deterministic stand-in for the stream of `randomUUID()` results. -/
def uuidGen (n : Nat) : List Char :=
  (Nat.repr n).data

/-- The spec's Scenario B input. -/
def scenarioB : List Char :=
  "Assistant: Yes, I can help.\nUser: Great, thanks!".data

/-- Two consecutive assistant messages: no speaker change takes place. -/
def sameRoleInput : List Char :=
  "Assistant: a\nAssistant: b".data

/-- A FloatAST with the given nodes and empty everything else, standing for
a stored document handed to the fragment extractor. -/
def mkTestAst (nodes : List FloatNode) : FloatAST :=
  { id := "ast-test".data
    version := "1.0".data
    type := AstType.conversation
    temporal := { created := [] }
    metadata := { source := SourceTag.local }
    nodes := nodes
    concepts := []
    patterns :=
      { ctx_markers := 0, float_dispatches := 0, ritual_invocations := 0,
        bridge_creates := 0, persona_switches := 0 }
    edges := []
    transforms := { preferred_output := OutputTarget.zine, depth_level := 2 } }

/-- A node whose raw text is `"a"`, at index `i`. -/
def aNode (i : Nat) : FloatNode :=
  { id := (Nat.repr i).data
    type := NodeType.message
    content := { raw := "a".data }
    position := { index := i, depth := 0 } }

/-- Twenty-one nodes that all match the query `"a"`. -/
def bigAst : FloatAST :=
  mkTestAst ((List.range 21).map aNode)

/-- A `JSON.parse` model that parses the string `"42"` to the number 42 and
fails elsewhere (exactly what the ECMAScript builtin does on `"42"`). -/
def parse42 : List Char → Option Json :=
  fun s => if s = "42".data then some (Json.num 42) else none

/-- A `JSON.parse` model that always fails. -/
def parseNone : List Char → Option Json :=
  fun _ => none

/-- Node with raw text `"xa"` at index 5 — placed first in `tieAst` although
its index is larger. -/
def tieNodeA : FloatNode :=
  { id := "na".data
    type := NodeType.message
    content := { raw := "xa".data }
    position := { index := 5, depth := 0 } }

/-- Node with raw text `"xb"` at index 2 — placed second in `tieAst`. -/
def tieNodeB : FloatNode :=
  { id := "nb".data
    type := NodeType.message
    content := { raw := "xb".data }
    position := { index := 2, depth := 0 } }

/-- An AST whose nodes array is not ordered by `position.index`: both nodes
score 1 for the query `"x"`, so the tie-break decides the output order. -/
def tieAst : FloatAST :=
  mkTestAst [tieNodeA, tieNodeB]

/-- Two distinct-text nodes in ascending index order (parser-shaped). -/
def sortedPairAst : FloatAST :=
  mkTestAst
    [ { id := "n0".data, type := NodeType.message,
        content := { raw := "xa".data }, position := { index := 0, depth := 0 } },
      { id := "n1".data, type := NodeType.message,
        content := { raw := "xb".data }, position := { index := 1, depth := 0 } } ]

/-! ## Theorems -/

/-- C9: For every input text and title (and every draw of uuids and
timestamps), the FloatAST assembled by `parseConversationToFloatAST` has an
empty `edges` array, an empty `concepts` map, and the counters
`ctx_markers`, `float_dispatches`, `ritual_invocations` and `bridge_creates`
all equal to 0, regardless of the input's content. -/
theorem parse_static_fields (content title : List Char)
    (gen : Nat → List Char) (astUuid now : List Char) :
    (parseConversationToFloatAST content title gen astUuid now).edges = []
    ∧ (parseConversationToFloatAST content title gen astUuid now).concepts = []
    ∧ (parseConversationToFloatAST content title gen astUuid now).patterns.ctx_markers = 0
    ∧ (parseConversationToFloatAST content title gen astUuid now).patterns.float_dispatches = 0
    ∧ (parseConversationToFloatAST content title gen astUuid now).patterns.ritual_invocations = 0
    ∧ (parseConversationToFloatAST content title gen astUuid now).patterns.bridge_creates = 0 :=
  ⟨rfl, rfl, rfl, rfl, rfl, rfl⟩

/-- C1: On the spec's Scenario B input the two nodes do get differing roles
(assistant then human), yet the assembled FloatAST's `edges` array is empty:
the parser initialises `edges` and never populates it, so the `responds_to`
edge from node 1 to node 0 demanded by the claim (and by the repository's
own FLOATAST.md / RECREATE.md) does not exist. -/
theorem scenarioB_roles_differ_but_no_edges :
    (parseConversationToFloatAST scenarioB "t".data uuidGen [] []).nodes.map (fun n => n.role)
      = [some Role.assistant, some Role.human]
    ∧ (parseConversationToFloatAST scenarioB "t".data uuidGen [] []).edges = [] := by
  constructor
  · rfl
  · rfl

/-- C2: On two consecutive assistant messages no adjacent pair has differing
roles (the spec-side count is 0), but the code sets `persona_switches` to
the number of assistant-role nodes, which is 2 here: the code counts
assistant nodes, not speaker changes. -/
theorem persona_switches_counts_assistant_nodes :
    (parseConversationToFloatAST sameRoleInput "t".data uuidGen [] []).patterns.persona_switches = 2
    ∧ specPersonaSwitches
        (parseConversationToFloatAST sameRoleInput "t".data uuidGen [] []).nodes = 0 := by
  constructor
  · rfl
  · rfl

/-- C8: The fallback fragment extractor is deterministic — two invocations
on equal `(ast, query, N)` triples produce identical ordered fragment
sequences (it is a pure function of its arguments in this embedding, which
mirrors the code's freedom from any ambient state). -/
theorem extractFragmentsManually_deterministic
    (ast₁ ast₂ : FloatAST) (q₁ q₂ : List Char) (n₁ n₂ : Nat)
    (ha : ast₁ = ast₂) (hq : q₁ = q₂) (hn : n₁ = n₂) :
    extractFragmentsManually ast₁ q₁ n₁ = extractFragmentsManually ast₂ q₂ n₂ := by
  subst ha
  subst hq
  subst hn
  rfl

/-- Witness for C8 at a concrete triple. -/
theorem extractFragmentsManually_deterministic_witness :
    extractFragmentsManually (mkTestAst [aNode 0]) "a".data 3
      = extractFragmentsManually (mkTestAst [aNode 0]) "a".data 3 :=
  extractFragmentsManually_deterministic (mkTestAst [aNode 0]) (mkTestAst [aNode 0])
    "a".data "a".data 3 3 rfl rfl rfl

/-- C3 (amended): the fallback path returns at most `N` fragments, and every
`manual` result of `extractFragmentsWithAI` obeys the same bound; no upper
ceiling is ever applied to `N` itself, and a `parsed` oracle result is
passed through with no length enforcement. -/
theorem extract_at_most_maxFragments (ast : FloatAST) (query : List Char) (N : Nat) :
    (extractFragmentsManually ast query N).length ≤ N
    ∧ ∀ (oracle : OracleResult) (jsonParse : List Char → Option Json) (fs : List Fragment),
        extractFragmentsWithAI ast query N oracle jsonParse = ExtractResult.manual fs →
        fs.length ≤ N := by
  have hlen : (extractFragmentsManually ast query N).length ≤ N := by
    unfold extractFragmentsManually
    rw [List.length_map]
    exact List.length_take_le _ _
  refine ⟨hlen, ?_⟩
  intro oracle jsonParse fs h
  cases oracle with
  | transportError =>
    cases h
    exact hlen
  | noContent =>
    cases h
    exact hlen
  | content c =>
    cases hp : jsonParse c with
    | some j =>
      simp only [extractFragmentsWithAI, hp] at h
      cases h
    | none =>
      simp only [extractFragmentsWithAI, hp] at h
      cases h
      exact hlen

/-- Witness for C3's amended theorem: the fallback bound at a concrete
input, obtained through the `manual`-result case of the theorem. -/
theorem extract_at_most_maxFragments_witness :
    (extractFragmentsManually (mkTestAst [aNode 0]) "a".data 5).length ≤ 5 :=
  (extract_at_most_maxFragments (mkTestAst [aNode 0]) "a".data 5).2
    OracleResult.transportError parseNone _ rfl

/-- C3 counterexample: with 21 matching nodes and a requested maximum of 21
the fallback returns 21 fragments — more than the ceiling of 20 the claim
says `N` is clamped to, so no such clamp exists. -/
theorem no_ceiling_clamp_counterexample :
    (extractFragmentsManually bigAst "a".data 21).length = 21
    ∧ ¬ ((extractFragmentsManually bigAst "a".data 21).length ≤ 20) := by
  constructor
  · rfl
  · decide

/-- C4 (amended): on oracle transport failure, missing response content, or
`JSON.parse` failure, `extractFragmentsWithAI` degrades to the deterministic
fallback and never surfaces an error; but it performs no shape validation —
any successfully parsed JSON value is returned as-is. -/
theorem extractFragmentsWithAI_cases (ast : FloatAST) (query : List Char) (N : Nat)
    (jsonParse : List Char → Option Json) (c : List Char) :
    extractFragmentsWithAI ast query N OracleResult.transportError jsonParse
      = ExtractResult.manual (extractFragmentsManually ast query N)
    ∧ extractFragmentsWithAI ast query N OracleResult.noContent jsonParse
      = ExtractResult.manual (extractFragmentsManually ast query N)
    ∧ (jsonParse c = none →
        extractFragmentsWithAI ast query N (OracleResult.content c) jsonParse
          = ExtractResult.manual (extractFragmentsManually ast query N))
    ∧ ∀ j, jsonParse c = some j →
        extractFragmentsWithAI ast query N (OracleResult.content c) jsonParse
          = ExtractResult.parsed j := by
  refine ⟨rfl, rfl, ?_, ?_⟩
  · intro h
    simp only [extractFragmentsWithAI, h]
  · intro j h
    simp only [extractFragmentsWithAI, h]

/-- Witness for C4's amended theorem: the parse-failure hypothesis
discharged at a concrete input. -/
theorem extractFragmentsWithAI_cases_witness :
    extractFragmentsWithAI (mkTestAst []) [] 10 (OracleResult.content "42".data) parseNone
      = ExtractResult.manual (extractFragmentsManually (mkTestAst []) [] 10) :=
  (extractFragmentsWithAI_cases (mkTestAst []) [] 10 parseNone "42".data).2.2.1 rfl

/-- C4 counterexample: an oracle response whose content is `"42"` parses to
the JSON number 42 — not remotely the expected array-of-fragments shape —
yet the extractor returns it as-is: no shape validation happens before the
response is accepted. -/
theorem oracle_shape_not_validated :
    extractFragmentsWithAI (mkTestAst []) [] 10 (OracleResult.content "42".data) parse42
      = ExtractResult.parsed (Json.num 42)
    ∧ isFragmentArrayJson (Json.num 42) = false := by
  constructor
  · unfold extractFragmentsWithAI parse42
    simp
  · rfl

/-- C6: For every line matching the `Author: message` pattern, the node
builder emits a `message` node whose role is `assistant` exactly when the
author label, lower-cased, contains the substring `"assistant"`, and `human`
otherwise; for a non-matching line that is non-blank after trimming it
still emits a `message` node with no role. -/
theorem buildNode_role_rule (line : List Char) (idx : Nat) (uuid : List Char) :
    (∀ author text, matchMessage line = some (author, text) →
      ∃ n, buildNode line idx uuid = some n
        ∧ n.type = NodeType.message
        ∧ n.role = some (if includesSub (lowerStr author) "assistant".data
                         then Role.assistant else Role.human))
    ∧ (matchMessage line = none → (jsTrim line).isEmpty = false →
      ∃ n, buildNode line idx uuid = some n
        ∧ n.type = NodeType.message
        ∧ n.role = none) := by
  constructor
  · intro author text h
    simp only [buildNode, h]
    exact ⟨_, rfl, rfl, rfl⟩
  · intro h hne
    simp only [buildNode, h, hne, Bool.not_false, if_true]
    exact ⟨_, rfl, rfl, rfl⟩

/-- Witness for C6: both branches exercised — an `Assistant:` line gets the
assistant role through the containment test, and a label-free line gets a
role-less message node. -/
theorem buildNode_role_rule_witness :
    (∃ n, buildNode "Assistant: hi".data 0 [] = some n
      ∧ n.type = NodeType.message
      ∧ n.role = some (if includesSub (lowerStr "Assistant".data) "assistant".data
                       then Role.assistant else Role.human))
    ∧ (∃ n, buildNode "just a line".data 0 [] = some n
      ∧ n.type = NodeType.message
      ∧ n.role = none) := by
  constructor
  · exact (buildNode_role_rule "Assistant: hi".data 0 []).1 "Assistant".data "hi".data (by rfl)
  · exact (buildNode_role_rule "just a line".data 0 []).2 (by rfl) (by rfl)

/-- Every node the loop body emits carries the running index it was built
at. -/
theorem buildNode_index (line : List Char) (idx : Nat) (uuid : List Char)
    (n : FloatNode) (h : buildNode line idx uuid = some n) :
    n.position.index = idx := by
  unfold buildNode at h
  cases hm : matchMessage line with
  | some p =>
    obtain ⟨author, text⟩ := p
    rw [hm] at h
    cases h
    rfl
  | none =>
    rw [hm] at h
    by_cases he : (jsTrim line).isEmpty = true
    · rw [he] at h
      cases h
    · rw [Bool.not_eq_true] at he
      rw [he] at h
      cases h
      rfl

/-- The parser's loop assigns `position.index` sequentially from the running
start index. -/
theorem buildNodes_indices (gen : Nat → List Char) :
    ∀ (lines : List (List Char)) (idx k : Nat),
      (buildNodes gen lines idx k).map (fun n => n.position.index)
        = List.range' idx (buildNodes gen lines idx k).length := by
  intro lines
  induction lines with
  | nil => intro idx k; rfl
  | cons line rest ih =>
    intro idx k
    cases hb : buildNode line idx (gen k) with
    | some n =>
      have hi := buildNode_index line idx (gen k) n hb
      simp only [buildNodes, hb, List.map_cons, List.length_cons, List.range'_succ, hi]
      exact congrArg (List.cons idx) (ih (idx + 1) (k + 1))
    | none =>
      simp only [buildNodes, hb]
      exact ih idx k

/-- C7: For every non-empty input conversation, the nodes produced by the
parser have `position.index` values forming the contiguous range
`0, 1, …, n-1` in input order — strictly increasing, starting at 0, with no
duplicates. -/
theorem parse_indices_contiguous (content title : List Char) (gen : Nat → List Char)
    (astUuid now : List Char) (_h : content ≠ []) :
    (parseConversationToFloatAST content title gen astUuid now).nodes.map
        (fun n => n.position.index)
      = List.range ((parseConversationToFloatAST content title gen astUuid now).nodes.length) := by
  simp only [parseConversationToFloatAST]
  rw [List.range_eq_range']
  exact buildNodes_indices gen _ 0 0

/-- Witness for C7 at a concrete non-empty input. -/
theorem parse_indices_contiguous_witness :
    (parseConversationToFloatAST "a".data "t".data uuidGen [] []).nodes.map
        (fun n => n.position.index)
      = List.range ((parseConversationToFloatAST "a".data "t".data uuidGen [] []).nodes.length) :=
  parse_indices_contiguous "a".data "t".data uuidGen [] [] (by decide)

/-- The empty pattern is found in every string, as with the ECMAScript
`includes`. -/
theorem includesSub_nil (s : List Char) : includesSub s [] = true := by
  cases s <;> simp [includesSub, startsWith]

/-- Lower-casing fixes every whitespace character. -/
theorem jsWs_toLower (c : Char) (h : jsWs c = true) : Char.toLower c = c := by
  unfold jsWs at h
  rw [decide_eq_true_eq] at h
  fin_cases h <;> rfl

/-- Lower-casing an all-whitespace string keeps it all-whitespace. -/
theorem lowerStr_all_ws (q : List Char) (h : q.all jsWs = true) :
    (lowerStr q).all jsWs = true := by
  unfold lowerStr
  rw [List.all_map]
  rw [List.all_eq_true] at h ⊢
  intro c hc
  have hw := h c hc
  simp only [Function.comp_apply]
  rw [jsWs_toLower c hw]
  exact hw

/-- After a piece boundary, an all-whitespace remainder contributes exactly
the final empty piece. -/
theorem splitWsGo_skip_all_ws (cs : List Char) (h : cs.all jsWs = true) :
    splitWsGo true cs [] = [[]] := by
  induction cs with
  | nil => rfl
  | cons d ds ih =>
    rw [List.all_cons, Bool.and_eq_true] at h
    simp only [splitWsGo, h.1, if_true]
    exact ih h.2

/-- Splitting an all-whitespace string on whitespace runs yields only empty
pieces: `[[]]` for the empty string and `[[], []]` otherwise. -/
theorem splitWsRuns_all_ws (q : List Char) (h : q.all jsWs = true) :
    splitWsRuns q = [[]] ∨ splitWsRuns q = [[], []] := by
  cases q with
  | nil => exact Or.inl rfl
  | cons c cs =>
    rw [List.all_cons, Bool.and_eq_true] at h
    right
    unfold splitWsRuns
    simp only [splitWsGo, h.1, if_true, Bool.false_eq_true, if_false, List.reverse_nil]
    rw [splitWsGo_skip_all_ws cs h.2]

/-- A single empty query word scores 1 on every text. -/
theorem relevanceScoreOf_one (t : List Char) : relevanceScoreOf [[]] t = 1 := by
  simp [relevanceScoreOf, includesSub_nil]

/-- Two empty query words score 2 on every text. -/
theorem relevanceScoreOf_two (t : List Char) : relevanceScoreOf [[], []] t = 2 := by
  simp [relevanceScoreOf, includesSub_nil]

/-- When an element compares `false` against everything in the list, stable
insertion appends it at the end. -/
theorem insertBy_all_false {α : Type} (cond : α → α → Bool) (x : α) (l : List α)
    (h : ∀ y ∈ l, cond x y = false) : insertBy cond x l = l ++ [x] := by
  induction l with
  | nil => rfl
  | cons y ys ih =>
    have hy := h y (List.mem_cons_self y ys)
    have ih' := ih (fun z hz => h z (List.mem_cons_of_mem y hz))
    simp [insertBy, hy, ih']

/-- When the comparator returns `false` on every pair, the stable-sort fold
leaves the order unchanged. -/
theorem foldl_insertBy_all_false {α : Type} (cond : α → α → Bool) :
    ∀ (l acc : List α),
      (∀ x ∈ l, ∀ y ∈ acc, cond x y = false) →
      (∀ x ∈ l, ∀ y ∈ l, cond x y = false) →
      l.foldl (fun a x => insertBy cond x a) acc = acc ++ l := by
  intro l
  induction l with
  | nil => intro acc _ _; simp
  | cons x rest ih =>
    intro acc hacc hl
    rw [List.foldl_cons]
    rw [insertBy_all_false cond x acc (hacc x (List.mem_cons_self x rest))]
    rw [ih (acc ++ [x]) ?ha ?hb]
    · simp
    case ha =>
      intro z hz y hy
      rcases List.mem_append.mp hy with hy | hy
      · exact hacc z (List.mem_cons_of_mem x hz) y hy
      · rw [List.mem_singleton.mp hy]
        exact hl z (List.mem_cons_of_mem x hz) x (List.mem_cons_self x rest)
    case hb =>
      intro z hz y hy
      exact hl z (List.mem_cons_of_mem x hz) y (List.mem_cons_of_mem x hy)

/-- A list on which the comparator is constantly `false` is left unchanged
by the stable sort. -/
theorem sortBy_id_of_all_false {α : Type} (cond : α → α → Bool) (l : List α)
    (h : ∀ x ∈ l, ∀ y ∈ l, cond x y = false) : sortBy cond l = l := by
  unfold sortBy
  rw [foldl_insertBy_all_false cond l []
    (fun x _ y hy => absurd hy (List.not_mem_nil y)) h]
  simp

/-- `filterMap` with an everywhere-`some` function is a `map`. -/
theorem filterMap_eq_map_of_some {α β : Type} (f : α → Option β) (g : α → β) (l : List α)
    (h : ∀ x ∈ l, f x = some (g x)) : l.filterMap f = l.map g := by
  induction l with
  | nil => rfl
  | cons x xs ih =>
    simp only [List.filterMap_cons, h x (List.mem_cons_self x xs), List.map_cons]
    rw [ih (fun z hz => h z (List.mem_cons_of_mem x hz))]

/-- C10: For every FloatAST with at least one node and every query that is
empty or all whitespace, every node receives a positive relevance score (the
empty token is a substring of every text), and the fallback extractor
returns the first `N` nodes as fragments — in particular a non-empty result
when `N > 0`. -/
theorem whitespace_query_returns_first_nodes (ast : FloatAST) (query : List Char) (N : Nat)
    (hn : ast.nodes ≠ []) (hq : query.all jsWs = true) :
    (∀ node ∈ ast.nodes,
        0 < relevanceScoreOf (queryWordsOf query) (lowerStr node.content.raw))
    ∧ extractFragmentsManually ast query N
        = (ast.nodes.take N).map (fun node =>
            (scoredFragOf (queryWordsOf query) node
              (relevanceScoreOf (queryWordsOf query) (lowerStr node.content.raw))).toFragment)
    ∧ (0 < N → extractFragmentsManually ast query N ≠ []) := by
  have hqw : queryWordsOf query = [[]] ∨ queryWordsOf query = [[], []] := by
    unfold queryWordsOf
    exact splitWsRuns_all_ws (lowerStr query) (lowerStr_all_ws query hq)
  obtain ⟨c, hc, hscore⟩ :
      ∃ c, 0 < c ∧ ∀ t, relevanceScoreOf (queryWordsOf query) t = c := by
    rcases hqw with h | h
    · exact ⟨1, Nat.one_pos, fun t => by rw [h]; exact relevanceScoreOf_one t⟩
    · exact ⟨2, Nat.succ_pos 1, fun t => by rw [h]; exact relevanceScoreOf_two t⟩
  have hpos : ∀ node ∈ ast.nodes,
      0 < relevanceScoreOf (queryWordsOf query) (lowerStr node.content.raw) := by
    intro node _
    rw [hscore]
    exact hc
  have heq : extractFragmentsManually ast query N
      = (ast.nodes.take N).map (fun node =>
          (scoredFragOf (queryWordsOf query) node
            (relevanceScoreOf (queryWordsOf query) (lowerStr node.content.raw))).toFragment) := by
    unfold extractFragmentsManually
    rw [filterMap_eq_map_of_some _
      (fun node => scoredFragOf (queryWordsOf query) node
        (relevanceScoreOf (queryWordsOf query) (lowerStr node.content.raw)))
      ast.nodes (fun node hnd => by rw [if_pos (hpos node hnd)])]
    rw [sortBy_id_of_all_false scoreCond _ ?hfalse]
    case hfalse =>
      intro x hx y hy
      rcases List.mem_map.mp hx with ⟨a, _, rfl⟩
      rcases List.mem_map.mp hy with ⟨b, _, rfl⟩
      simp [scoreCond, scoredFragOf, hscore]
    rw [← List.map_take, List.map_map]
    rfl
  refine ⟨hpos, heq, ?_⟩
  intro hN hcontra
  rw [heq] at hcontra
  rw [List.map_eq_nil_iff] at hcontra
  rcases List.take_eq_nil_iff.mp hcontra with h0 | h0
  · omega
  · exact hn h0

/-- Witness for C10: a concrete two-node AST and the query `" "`. -/
theorem whitespace_query_returns_first_nodes_witness :
    extractFragmentsManually sortedPairAst " ".data 1
      = (sortedPairAst.nodes.take 1).map (fun node =>
          (scoredFragOf (queryWordsOf " ".data) node
            (relevanceScoreOf (queryWordsOf " ".data) (lowerStr node.content.raw))).toFragment) :=
  (whitespace_query_returns_first_nodes sortedPairAst " ".data 1
    (by decide) (by decide)).2.1

/-- Membership through stable insertion. -/
theorem mem_insertBy {α : Type} (cond : α → α → Bool) (x z : α) (l : List α) :
    z ∈ insertBy cond x l ↔ z = x ∨ z ∈ l := by
  induction l with
  | nil => simp [insertBy]
  | cons y ys ih =>
    by_cases hc : cond x y = true
    · simp [insertBy, hc]
    · rw [Bool.not_eq_true] at hc
      simp [insertBy, hc, ih]
      tauto

/-- Stable insertion permutes with consing. -/
theorem insertBy_perm {α : Type} (cond : α → α → Bool) (x : α) (l : List α) :
    (insertBy cond x l).Perm (x :: l) := by
  induction l with
  | nil => exact List.Perm.refl _
  | cons y ys ih =>
    by_cases hc : cond x y = true
    · simp only [insertBy, hc, if_true]
      exact List.Perm.refl _
    · rw [Bool.not_eq_true] at hc
      simp only [insertBy, hc, Bool.false_eq_true, if_false]
      exact (ih.cons y).trans (List.Perm.swap x y ys)

/-- The stable-sort fold is a permutation of `acc ++ l`. -/
theorem foldl_insertBy_perm {α : Type} (cond : α → α → Bool) :
    ∀ (l acc : List α),
      (l.foldl (fun a x => insertBy cond x a) acc).Perm (acc ++ l) := by
  intro l
  induction l with
  | nil => intro acc; simp
  | cons x rest ih =>
    intro acc
    rw [List.foldl_cons]
    refine (ih (insertBy cond x acc)).trans ?_
    refine (List.Perm.append_right rest (insertBy_perm cond x acc)).trans ?_
    exact List.perm_middle.symm

/-- The stable sort permutes its input. -/
theorem sortBy_perm {α : Type} (cond : α → α → Bool) (l : List α) :
    (sortBy cond l).Perm l := by
  unfold sortBy
  simpa using foldl_insertBy_perm cond l []

/-- `lexLt` is transitive. -/
theorem lexLt_trans (a b c : SNode) (h1 : lexLt a b) (h2 : lexLt b c) : lexLt a c := by
  unfold lexLt at h1 h2 ⊢
  rcases h1 with h1 | ⟨h1e, h1i⟩ <;> rcases h2 with h2 | ⟨h2e, h2i⟩
  · exact Or.inl (by omega)
  · exact Or.inl (by omega)
  · exact Or.inl (by omega)
  · exact Or.inr ⟨by omega, by omega⟩

/-- `lexLt` is asymmetric. -/
theorem lexLt_asymm (a b : SNode) (h : lexLt a b) : ¬ lexLt b a := by
  unfold lexLt at h ⊢
  intro h2
  rcases h with h | ⟨he, hi⟩ <;> rcases h2 with h2 | ⟨h2e, h2i⟩ <;> omega

/-- Stable insertion preserves pairwiseness of a transitive relation when
the inserted element relates correctly to every list element. -/
theorem pairwise_insertBy {α : Type} {r : α → α → Prop} (cond : α → α → Bool)
    (htrans : ∀ a b c, r a b → r b c → r a c) (x : α) :
    ∀ l : List α,
      (∀ y ∈ l, (cond x y = true → r x y) ∧ (cond x y = false → r y x)) →
      l.Pairwise r → (insertBy cond x l).Pairwise r := by
  intro l
  induction l with
  | nil =>
    intro _ _
    simp [insertBy]
  | cons y ys ih =>
    intro hx hl
    rw [List.pairwise_cons] at hl
    by_cases hc : cond x y = true
    · simp only [insertBy, hc, if_true]
      rw [List.pairwise_cons]
      refine ⟨?_, ?_⟩
      · intro z hz
        rcases List.mem_cons.mp hz with hz | hz
        · subst hz
          exact (hx z (List.mem_cons_self z ys)).1 hc
        · exact htrans x y z ((hx y (List.mem_cons_self y ys)).1 hc) (hl.1 z hz)
      · rw [List.pairwise_cons]
        exact ⟨hl.1, hl.2⟩
    · rw [Bool.not_eq_true] at hc
      simp only [insertBy, hc, Bool.false_eq_true, if_false]
      rw [List.pairwise_cons]
      refine ⟨?_, ?_⟩
      · intro z hz
        rcases (mem_insertBy cond x z ys).mp hz with hz | hz
        · subst hz
          exact (hx y (List.mem_cons_self y ys)).2 hc
        · exact hl.1 z hz
      · exact ih (fun z hz => hx z (List.mem_cons_of_mem y hz)) hl.2

/-- Two pairwise-ordered permutations of each other under an asymmetric
relation are equal. -/
theorem eq_of_perm_of_pairwise_asymm {α : Type} {r : α → α → Prop}
    (hasym : ∀ a b, r a b → ¬ r b a) :
    ∀ (l₁ l₂ : List α), l₁.Perm l₂ → l₁.Pairwise r → l₂.Pairwise r → l₁ = l₂ := by
  intro l₁
  induction l₁ with
  | nil =>
    intro l₂ hp _ _
    exact (List.Perm.eq_nil hp.symm).symm
  | cons a t₁ ih =>
    intro l₂ hp h1 h2
    have ha : a ∈ l₂ := hp.mem_iff.mp (List.mem_cons_self a t₁)
    cases l₂ with
    | nil => exact absurd ha (List.not_mem_nil a)
    | cons b t₂ =>
      rw [List.pairwise_cons] at h1 h2
      by_cases hab : a = b
      · subst hab
        have hp' : t₁.Perm t₂ := hp.cons_inv
        rw [ih t₂ hp' h1.2 h2.2]
      · have hat2 : a ∈ t₂ := by
          rcases List.mem_cons.mp ha with h | h
          · exact absurd h hab
          · exact h
        have hba : r b a := h2.1 a hat2
        have hbt1 : b ∈ t₁ := by
          have hb : b ∈ a :: t₁ := hp.mem_iff.mpr (List.mem_cons_self b t₂)
          rcases List.mem_cons.mp hb with h | h
          · exact absurd h.symm hab
          · exact h
        have hab2 : r a b := h1.1 b hbt1
        exact absurd hba (hasym a b hab2)

/-- The stable-sort fold produces a `lexLt`-pairwise list, for any
comparator whose verdicts are `lexLt`-correct on index-increasing input. -/
theorem foldl_insertBy_pairwise_lex (cond : SNode → SNode → Bool)
    (hcond : ∀ x y : SNode, y.1.position.index < x.1.position.index →
      (cond x y = true → lexLt x y) ∧ (cond x y = false → lexLt y x)) :
    ∀ (l acc : List SNode),
      l.Pairwise (fun a b => a.1.position.index < b.1.position.index) →
      acc.Pairwise lexLt →
      (∀ y ∈ acc, ∀ x ∈ l, y.1.position.index < x.1.position.index) →
      (l.foldl (fun a x => insertBy cond x a) acc).Pairwise lexLt := by
  intro l
  induction l with
  | nil =>
    intro acc _ hacc _
    simpa using hacc
  | cons x rest ih =>
    intro acc hl hacc hcross
    rw [List.foldl_cons]
    rw [List.pairwise_cons] at hl
    refine ih (insertBy cond x acc) hl.2 ?_ ?_
    · exact pairwise_insertBy cond lexLt_trans x acc
        (fun y hy => hcond x y (hcross y hy x (List.mem_cons_self x rest))) hacc
    · intro y hy z hz
      rcases (mem_insertBy cond x y acc).mp hy with rfl | hy
      · exact hl.1 z hz
      · exact hcross y hy z (List.mem_cons_of_mem x hz)

/-- Sorting an index-increasing list with a `lexLt`-correct comparator
yields a `lexLt`-pairwise list. -/
theorem sortBy_pairwise_lex (cond : SNode → SNode → Bool)
    (hcond : ∀ x y : SNode, y.1.position.index < x.1.position.index →
      (cond x y = true → lexLt x y) ∧ (cond x y = false → lexLt y x))
    (l : List SNode)
    (hl : l.Pairwise (fun a b => a.1.position.index < b.1.position.index)) :
    (sortBy cond l).Pairwise lexLt := by
  unfold sortBy
  exact foldl_insertBy_pairwise_lex cond hcond l [] hl List.Pairwise.nil
    (fun y hy => absurd hy (List.not_mem_nil y))

/-- The code's score-only comparator is `lexLt`-correct on index-increasing
input: score order decides, and a score tie inherits the array order, which
is the index order. -/
theorem pairCond_lex_correct : ∀ x y : SNode, y.1.position.index < x.1.position.index →
    (pairCond x y = true → lexLt x y) ∧ (pairCond x y = false → lexLt y x) := by
  intro x y hidx
  constructor
  · intro h
    rw [pairCond, decide_eq_true_eq] at h
    exact Or.inl h
  · intro h
    rw [pairCond, decide_eq_false_iff_not] at h
    unfold lexLt
    rcases Nat.lt_or_ge x.2 y.2 with hlt | hge
    · exact Or.inl hlt
    · exact Or.inr ⟨by omega, hidx⟩

/-- The spec's lexicographic comparator is `lexLt`-correct on
index-increasing input. -/
theorem lexCond_lex_correct : ∀ x y : SNode, y.1.position.index < x.1.position.index →
    (lexCond x y = true → lexLt x y) ∧ (lexCond x y = false → lexLt y x) := by
  intro x y hidx
  constructor
  · intro h
    rwa [lexCond, decide_eq_true_eq] at h
  · intro h
    rw [lexCond, decide_eq_false_iff_not] at h
    unfold lexLt at h ⊢
    rcases Nat.lt_or_ge x.2 y.2 with hlt | hge
    · exact Or.inl hlt
    · have h1 : ¬ (y.2 < x.2) := fun hc => h (Or.inl hc)
      exact Or.inr ⟨by omega, hidx⟩

/-- On an index-increasing list the code's stable score sort and the spec's
score-then-index sort agree. -/
theorem sortBy_pair_eq_lex (l : List SNode)
    (hl : l.Pairwise (fun a b => a.1.position.index < b.1.position.index)) :
    sortBy pairCond l = sortBy lexCond l :=
  eq_of_perm_of_pairwise_asymm lexLt_asymm (sortBy pairCond l) (sortBy lexCond l)
    ((sortBy_perm pairCond l).trans (sortBy_perm lexCond l).symm)
    (sortBy_pairwise_lex pairCond pairCond_lex_correct l hl)
    (sortBy_pairwise_lex lexCond lexCond_lex_correct l hl)

/-- Stable insertion commutes with a map that preserves the comparator. -/
theorem insertBy_map {α β : Type} (g : β → α) (condA : α → α → Bool)
    (condB : β → β → Bool) (hc : ∀ a b, condA (g a) (g b) = condB a b) (x : β) :
    ∀ l : List β, insertBy condA (g x) (l.map g) = (insertBy condB x l).map g := by
  intro l
  induction l with
  | nil => rfl
  | cons y ys ih =>
    by_cases hb : condB x y = true
    · simp only [List.map_cons, insertBy, hc x y, hb, if_true]
    · rw [Bool.not_eq_true] at hb
      simp only [List.map_cons, insertBy, hc x y, hb, Bool.false_eq_true, if_false, ih]

/-- The stable-sort fold commutes with a comparator-preserving map. -/
theorem foldl_insertBy_map {α β : Type} (g : β → α) (condA : α → α → Bool)
    (condB : β → β → Bool) (hc : ∀ a b, condA (g a) (g b) = condB a b) :
    ∀ (l acc : List β),
      (l.map g).foldl (fun a x => insertBy condA x a) (acc.map g)
        = (l.foldl (fun a x => insertBy condB x a) acc).map g := by
  intro l
  induction l with
  | nil => intro acc; rfl
  | cons x rest ih =>
    intro acc
    rw [List.map_cons, List.foldl_cons, List.foldl_cons]
    rw [insertBy_map g condA condB hc x acc]
    exact ih (insertBy condB x acc)

/-- The stable sort commutes with a comparator-preserving map. -/
theorem sortBy_map {α β : Type} (g : β → α) (condA : α → α → Bool)
    (condB : β → β → Bool) (hc : ∀ a b, condA (g a) (g b) = condB a b) (l : List β) :
    sortBy condA (l.map g) = (sortBy condB l).map g := by
  unfold sortBy
  simpa using foldl_insertBy_map g condA condB hc l []

/-- The code's scored-fragment list is the node-score pair list mapped into
fragments. -/
theorem filterMap_scored_split (qw : List (List Char)) (nodes : List FloatNode) :
    nodes.filterMap (fun node =>
      if 0 < relevanceScoreOf qw (lowerStr node.content.raw)
      then some (scoredFragOf qw node (relevanceScoreOf qw (lowerStr node.content.raw)))
      else none)
    = (nodes.filterMap (fun node =>
        if 0 < relevanceScoreOf qw (lowerStr node.content.raw)
        then some (node, relevanceScoreOf qw (lowerStr node.content.raw))
        else none)).map (fragOfPair qw) := by
  induction nodes with
  | nil => rfl
  | cons n ns ih =>
    by_cases h : 0 < relevanceScoreOf qw (lowerStr n.content.raw)
    · simp only [List.filterMap_cons, if_pos h, List.map_cons, ih]
      rfl
    · simp only [List.filterMap_cons, if_neg h, ih]

/-- Filtering out zero scorers keeps the strict index order of the nodes
array. -/
theorem pairwise_filterMap_scored (qw : List (List Char)) (nodes : List FloatNode)
    (h : nodes.Pairwise (fun a b => a.position.index < b.position.index)) :
    (nodes.filterMap (fun node =>
        if 0 < relevanceScoreOf qw (lowerStr node.content.raw)
        then some (node, relevanceScoreOf qw (lowerStr node.content.raw))
        else none)).Pairwise
      (fun a b : SNode => a.1.position.index < b.1.position.index) := by
  induction nodes with
  | nil => exact List.Pairwise.nil
  | cons n ns ih =>
    rw [List.pairwise_cons] at h
    by_cases hp : 0 < relevanceScoreOf qw (lowerStr n.content.raw)
    · simp only [List.filterMap_cons, if_pos hp]
      rw [List.pairwise_cons]
      refine ⟨?_, ih h.2⟩
      intro p hpmem
      rcases List.mem_filterMap.mp hpmem with ⟨b, hbmem, hbf⟩
      by_cases hb : 0 < relevanceScoreOf qw (lowerStr b.content.raw)
      · rw [if_pos hb] at hbf
        cases hbf
        exact h.1 b hbmem
      · rw [if_neg hb] at hbf
        cases hbf
    · simp only [List.filterMap_cons, if_neg hp]
      exact ih h.2

/-- C5 (amended): whenever the nodes array is ordered by strictly increasing
`position.index` — as every parser-produced FloatAST is — the fallback
extractor behaves exactly as the spec describes: score = count of contained
lower-cased query words, zero scorers discarded, sort by score descending
with ties broken by `position.index` ascending, first `N` taken, keywords =
the query words that matched. On nodes arrays not in index order, ties
follow the array order instead (see the counterexample). -/
theorem fallback_matches_spec_on_sorted_nodes (ast : FloatAST) (query : List Char)
    (N : Nat)
    (h : ast.nodes.Pairwise (fun a b => a.position.index < b.position.index)) :
    extractFragmentsManually ast query N = specFallbackExtract ast query N := by
  unfold extractFragmentsManually specFallbackExtract
  rw [filterMap_scored_split (queryWordsOf query) ast.nodes]
  rw [sortBy_map (fragOfPair (queryWordsOf query)) scoreCond pairCond (fun a b => rfl)]
  rw [sortBy_pair_eq_lex _ (pairwise_filterMap_scored (queryWordsOf query) ast.nodes h)]
  rw [← List.map_take, List.map_map]
  rfl

/-- Witness for C5's amended theorem: a two-node, index-ordered AST where
code and spec agree. -/
theorem fallback_matches_spec_witness :
    extractFragmentsManually sortedPairAst "x".data 2
      = specFallbackExtract sortedPairAst "x".data 2 :=
  fallback_matches_spec_on_sorted_nodes sortedPairAst "x".data 2 (by decide)

/-- C5 counterexample: on an AST whose nodes array is not in index order
(indices 5 then 2, both scoring 1 for the query `"x"`), the code's stable
sort keeps the array order while the claim's index tie-break would swap the
two fragments — so the claim, quantified over every FloatAST, fails. -/
theorem fallback_tie_break_counterexample :
    extractFragmentsManually tieAst "x".data 2 ≠ specFallbackExtract tieAst "x".data 2 := by
  decide

end FloatZine
